import Mathlib

/-! The msgp codec and the bucket layer of bow.

A shallow embedding of `codec/msgp/msgp.go` (the `Id` type and the `Codec`
methods) and, for the bucket, database and iterator operations that
`bow_test.go` exercises, a model written from the design document.
-/

namespace Bow

/-! ## Go values used by the codec -/

/-- One byte. -/
abbrev Byte := Fin 256

/-- A Go `[]byte`: `none` is the nil slice, `some l` a non-nil slice holding `l`. -/
abbrev ByteSlice := Option (List Byte)

/-- Go `len(s)`. -/
def ByteSlice.len (s : ByteSlice) : Nat :=
  match s with
  | none => 0
  | some l => l.length

/-- Go `s[lo:]` for `lo ≤ len(s)`: the nil slice stays nil. -/
def ByteSlice.sliceFrom (s : ByteSlice) (lo : Nat) : ByteSlice :=
  s.map (List.drop lo)

/-- A Go `error` value that is not nil, by dynamic type.
`errorString` is `*errors.errorString`, what `errors.New` and `fmt.Errorf`
(without `%w`) build: it carries nothing but its text.  `typed` is a value of any
other concrete error type. -/
inductive GoError where
  | errorString (text : String)
  | typed (dynType : String) (text : String)
  deriving DecidableEq, Repr

/-- Go `fmt.Errorf(format, v)` for the one format used in `msgp.go`,
`"type %T doesn't implement msgp.Marshaler. Did you forget to 'go generate'?"`,
where `typeName` is what `%T` prints for `v`. -/
def fmtErrorf (typeName : String) : GoError :=
  GoError.errorString
    ("type " ++ typeName ++
      " doesn\x27t implement msgp.Marshaler. Did you forget to \x27go generate\x27?")

/-- Whether an error value has a concrete type of its own, so that a caller can
tell it from other failures by a type switch or `errors.As`. -/
def GoError.isTyped : GoError → Bool
  | GoError.errorString _ => false
  | GoError.typed _ _ => true

/-- The dynamic type of a value held in an `interface{}`, as far as the codec
looks at it: the name `%T` prints, and the methods `MarshalMsg` and
`UnmarshalMsg` when the type has them (a type satisfies `msgp.Marshaler`, resp.
`msgp.Unmarshaler`, exactly when it has the method).  `UnmarshalMsg` has a
pointer receiver: it takes the bytes and the present content of the target and
returns the new content, the unread bytes and the error. -/
structure GoType (α : Type) where
  name : String
  marshalMsg : Option (α → ByteSlice → ByteSlice × Option GoError)
  unmarshalMsg : Option (ByteSlice → α → α × ByteSlice × Option GoError)

/-! ## `msgp.go` -/

/-- The type `Id []byte`. -/
abbrev Id := ByteSlice

/-- The method `func (id Id) Marshal(in []byte) ([]byte, error)`. -/
def Id.Marshal (id : Id) (_in : ByteSlice) : ByteSlice × Option GoError :=
  (id, none)

/-- The method `func (id *Id) Unmarshal(b []byte) error`: the new content of the
receiver and the error. -/
def Id.Unmarshal (_id : Id) (b : ByteSlice) : Id × Option GoError :=
  (b, none)

/-- The method `func (c Codec) Marshal(v interface{}, in []byte) (out []byte, err error)`. -/
def Codec.Marshal {α : Type} (ty : GoType α) (v : α) (in_ : ByteSlice) :
    ByteSlice × Option GoError :=
  match ty.marshalMsg with
  | none => (none, some (fmtErrorf ty.name))
  | some m => m v (in_.sliceFrom 0)

/-- The method `func (c Codec) Unmarshal(data []byte, v interface{}) error`, with
`target` the content `v` points to: the content afterwards and the error. -/
def Codec.Unmarshal {α : Type} (ty : GoType α) (data : ByteSlice) (target : α) :
    α × Option GoError :=
  match ty.unmarshalMsg with
  | none => (target, some (fmtErrorf ty.name))
  | some m =>
    match m data target with
    | (target', _, err) => (target', err)

/-! ## Sample types, used to instantiate the theorems -/

/-- A type without msgp methods: Go `int`. -/
def intType : GoType Int :=
  { name := "int", marshalMsg := none, unmarshalMsg := none }

/-- `MarshalMsg` of the sample type `Blob`, a byte string written in the
MessagePack bin8 form: the lead byte `0xc4`, the length, the content, appended to
the buffer.  Content of 256 bytes or more is refused. -/
def Blob.MarshalMsg (v : List Byte) (buf : ByteSlice) : ByteSlice × Option GoError :=
  if v.length < 256 then
    (some (buf.getD [] ++ (0xc4 : Byte) :: Fin.ofNat v.length :: v), none)
  else
    (buf, some (GoError.typed "blob.tooLong" "blob: content too long"))

/-- `UnmarshalMsg` of the sample type `Blob`: reads one bin8 value off the front of
the bytes and returns what follows it. -/
def Blob.UnmarshalMsg (data : ByteSlice) (target : List Byte) :
    List Byte × ByteSlice × Option GoError :=
  match data.getD [] with
  | lead :: n :: rest =>
    if lead = (0xc4 : Byte) then
      if n.val ≤ rest.length then
        (rest.take n.val, some (rest.drop n.val), none)
      else
        (target, data, some (GoError.typed "msgp.errShort" "msgp: too few bytes left to read object"))
    else
      (target, data, some (GoError.typed "msgp.TypeError" "msgp: attempted to decode a type that is not bin"))
  | _ => (target, data, some (GoError.typed "msgp.errShort" "msgp: too few bytes left to read object"))

/-- The sample type `Blob`, with both msgp methods. -/
def blobType : GoType (List Byte) :=
  { name := "blob.Blob", marshalMsg := some Blob.MarshalMsg, unmarshalMsg := some Blob.UnmarshalMsg }

/-- A type is supported by the codec when it has both methods and its
`UnmarshalMsg` decodes, into any target, what its `MarshalMsg` encodes into an
empty buffer. -/
def GoType.Supported {α : Type} (ty : GoType α) : Prop :=
  ∃ m u, ty.marshalMsg = some m ∧ ty.unmarshalMsg = some u ∧
    ∀ (v : α) (buf out : ByteSlice) (target : α), buf.len = 0 → m v buf = (out, none) →
      ∃ rest, u out target = (v, rest, none)

/-! ## The bucket layer

`bow_test.go` calls `Open`, `Bucket`, `Put`, `Get`, `Iter`, `Next`, `Err` and
`Close`; their definitions are modelled from the design document. -/

/-- Modelled from the spec: the error taxonomy of §7 (the error values of the
bucket layer, whose Go declarations are missing): the three key-extraction
errors, a codec error wrapping what the codec returned, `NotFound`, and an engine
error. -/
inductive BowError where
  | noKeyField
  | unsupportedKeyType
  | emptyKey
  | codec (e : GoError)
  | notFound
  | engine (text : String)
  deriving DecidableEq, Repr

/-- Modelled from the spec: the runtime value of a record's key field, or of the
key argument of `Get` (§3, §4.1; the key-handling code is missing): a string, a
signed or unsigned integer of `width` bytes, an identifier (`Id`), or a value of
some other type. -/
inductive KeyValue where
  | str (bytes : List Byte)
  | int (width : Nat) (v : Int)
  | uint (width : Nat) (v : Nat)
  | id (bytes : Id)
  | other (typeName : String)
  deriving DecidableEq, Repr

/-- Modelled from the spec: the `width` bytes of `n` modulo `256 ^ width`, most
significant first (§4.1, "fixed-width ... big-endian"; the key-handling code is
missing). -/
def bigEndian : Nat → Nat → List Byte
  | 0, _ => []
  | width + 1, n => Fin.ofNat (n / 256 ^ width) :: bigEndian width n

/-- Modelled from the spec: the Key Extractor's encoding of a key value (§4.1; the
key-handling code is missing).  Strings give their raw bytes, signed integers
their fixed-width big-endian bytes with the sign bit flipped, unsigned integers
their fixed-width big-endian bytes, identifiers their bytes as they are; another
type is `UnsupportedKeyType`, an empty result is `EmptyKey`. -/
def encodeKey (k : KeyValue) : Except BowError (List Byte) :=
  let nonEmpty := fun (b : List Byte) => if b = [] then Except.error BowError.emptyKey else Except.ok b
  match k with
  | KeyValue.str b => nonEmpty b
  | KeyValue.int w v => nonEmpty (bigEndian w ((v + 2 ^ (8 * w - 1)) % 2 ^ (8 * w)).toNat)
  | KeyValue.uint w v => nonEmpty (bigEndian w v)
  | KeyValue.id b => nonEmpty (b.getD [])
  | KeyValue.other _ => Except.error BowError.unsupportedKeyType

/-- Modelled from the spec: what the layer knows of a record type (§3, §9; the
reflection code that finds the field tagged `bow:"key"` is missing): the reader of
its one key field, or `none` when the type declares no key field. -/
structure RecordType (α : Type) where
  keyField : Option (α → KeyValue)

/-- Modelled from the spec: the Key Extractor (§4.1; its code is missing): locate
the key field, read it, encode it. -/
def extractKey {α : Type} (rt : RecordType α) (v : α) : Except BowError (List Byte) :=
  match rt.keyField with
  | none => Except.error BowError.noKeyField
  | some f => encodeKey (f v)

/-- Modelled from the spec: the codec contract of §4.2 (the Go interface
`codec.Codec` is missing): `marshal(value) -> bytes | error` and
`unmarshal(bytes, target) -> error`, plus a format tag. -/
structure CodecContract (α : Type) where
  marshal : α → ByteSlice × Option GoError
  unmarshal : ByteSlice → α → α × Option GoError
  format : String

/-- Modelled from the spec: how the bucket layer hands values to the msgp `Codec` of
`msgp.go` when it is the database's codec (§4.2 `marshal(value)`; the caller of
`Codec.Marshal` is missing): it marshals into a nil buffer. -/
def msgpCodec {α : Type} (ty : GoType α) : CodecContract α :=
  { marshal := fun v => Codec.Marshal ty v none
    unmarshal := Codec.Unmarshal ty
    format := "MessagePack" }

/-- Modelled from the spec: the key space of one bucket (§3, "an ordered mapping
from encoded key → encoded value"; the engine is an external collaborator): the
entries in ascending byte-lexicographic key order. -/
abbrev Entries := List (List Byte × ByteSlice)

/-- Modelled from the spec: one committed state of the store (§3, §6): the bucket
directory in creation order, each name with its key space. -/
abbrev Store := List (String × Entries)

/-- Modelled from the spec: the engine's lookup of an encoded key in a bucket's key
space (§4.3 `Get`, "look up encoded key"). -/
def Entries.find (k : List Byte) : Entries → Option ByteSlice
  | [] => none
  | (k', x) :: rest => if k = k' then some x else Entries.find k rest

/-- Modelled from the spec: the engine's upsert into a bucket's key space (§4.3
`Put`, "upsert key→bytes"; §3, "a Put with an existing key overwrites in place; a
Put with a new key inserts"), keeping the keys in ascending order. -/
def Entries.upsert (k : List Byte) (x : ByteSlice) : Entries → Entries
  | [] => [(k, x)]
  | (k', x') :: rest =>
    if k = k' then (k, x) :: rest
    else if k < k' then (k, x) :: (k', x') :: rest
    else (k', x') :: Entries.upsert k x rest

/-- Modelled from the spec: the key space of the bucket `name` in a committed
state; a bucket that was never written to holds nothing (§4.5 `Bucket(name)`,
"does not require the bucket to pre-exist"). -/
def Store.bucket (name : String) : Store → Entries
  | [] => []
  | (n, es) :: rest => if name = n then es else Store.bucket name rest

/-- Modelled from the spec: one committed single-key write (§4.3 `Put`): the upsert
into the bucket, which is created and registered at the end of the directory when
this is its first write. -/
def Store.write (name : String) (k : List Byte) (x : ByteSlice) : Store → Store
  | [] => [(name, [(k, x)])]
  | (n, es) :: rest =>
    if name = n then (n, Entries.upsert k x es) :: rest
    else (n, es) :: Store.write name k x rest

/-- Modelled from the spec: `Buckets()` (§4.5): the bucket names in the order they
were first created. -/
def Store.Buckets (s : Store) : List String :=
  s.map Prod.fst

/-- Modelled from the spec: the database as the transactional engine presents it
(§5; the engine and the `DB` type are missing): the latest committed state, and the
earlier committed states, oldest first, which stay readable for the read
transactions that began on them. -/
structure DB where
  past : List Store
  current : Store

/-- Modelled from the spec: `Open` on a path where no file exists yet (§4.5): a
store without buckets. -/
def DB.Open : DB :=
  { past := [], current := [] }

/-- Modelled from the spec: the state a read transaction that began at commit
number `ts` sees (§5, "each reader's view is frozen at transaction-start"). -/
def DB.versionAt (db : DB) (ts : Nat) : Option Store :=
  (db.past ++ [db.current])[ts]?

/-- Modelled from the spec: `Bucket(name).Put(value)` (§4.3; the method is missing):
extract the key, encode the value with the codec, then commit the upsert of
key→bytes in a write transaction; the first error met is returned and nothing is
written. -/
def Bucket.Put {α : Type} (rt : RecordType α) (c : CodecContract α) (db : DB) (name : String)
    (v : α) : Except BowError DB :=
  match extractKey rt v with
  | Except.error e => Except.error e
  | Except.ok k =>
    match c.marshal v with
    | (_, some e) => Except.error (BowError.codec e)
    | (bytes, none) =>
      Except.ok { past := db.past ++ [db.current], current := Store.write name k bytes db.current }

/-- Modelled from the spec: `Bucket(name).Get(key, target)` (§4.3; the method is
missing): encode the key, look it up in the latest committed state, fail with
`NotFound` when absent, else decode the bytes into the target.  Returns the
target's content afterwards and the error. -/
def Bucket.Get {α : Type} (c : CodecContract α) (db : DB) (name : String) (key : KeyValue)
    (target : α) : α × Option BowError :=
  match encodeKey key with
  | Except.error e => (target, some e)
  | Except.ok k =>
    match Entries.find k (Store.bucket name db.current) with
    | none => (target, some BowError.notFound)
    | some bytes =>
      match c.unmarshal bytes target with
      | (target', none) => (target', none)
      | (target', some e) => (target', some (BowError.codec e))

/-- Modelled from the spec: the states of an Iterator (§4.4). -/
inductive IterState where
  | Open
  | Exhausted
  | Closed
  deriving DecidableEq, Repr

/-- Modelled from the spec: an Iterator (§3, §4.4; the type is missing): the bucket
it reads, the read transaction it holds (the commit number it began at), the
cursor position, its state and its sticky error. -/
structure Iterator where
  bucket : String
  readTs : Nat
  pos : Nat
  state : IterState
  err : Option BowError
  deriving DecidableEq, Repr

/-- Modelled from the spec: `Bucket(name).Iter()` (§4.3 `Iterate`): begin a read
transaction on the latest committed state, with the cursor at the bucket's first
key. -/
def Bucket.Iter (db : DB) (name : String) : Iterator :=
  { bucket := name, readTs := db.past.length, pos := 0, state := IterState.Open, err := none }

/-- Modelled from the spec: `Iterator.Next(target)` (§4.4 `advance()`; the method is
missing): a no-op reporting false when closed, exhausted or after an error; at
the end of the snapshot, go to `Exhausted` and report false; else decode the
current key's value into the target and advance the cursor; a decode or read
fault becomes the sticky error.  Returns the iterator, the target's content and
the reported boolean. -/
def Iterator.Next {α : Type} (c : CodecContract α) (db : DB) (it : Iterator) (target : α) :
    Iterator × α × Bool :=
  match it.state with
  | IterState.Closed => (it, target, false)
  | IterState.Exhausted => (it, target, false)
  | IterState.Open =>
    match it.err with
    | some _ => (it, target, false)
    | none =>
      match db.versionAt it.readTs with
      | none => ({ it with err := some (BowError.engine "read transaction lost") }, target, false)
      | some view =>
        match (Store.bucket it.bucket view)[it.pos]? with
        | none => ({ it with state := IterState.Exhausted }, target, false)
        | some (_, bytes) =>
          match c.unmarshal bytes target with
          | (target', none) => ({ it with pos := it.pos + 1 }, target', true)
          | (target', some e) => ({ it with err := some (BowError.codec e) }, target', false)

/-- Modelled from the spec: `Iterator.Err()` (§4.4, the sticky error). -/
def Iterator.Err (it : Iterator) : Option BowError :=
  it.err

/-- Modelled from the spec: `Iterator.Close()` (§4.4 `close()`): valid from any
state and idempotent. -/
def Iterator.Close (it : Iterator) : Iterator :=
  { it with state := IterState.Closed }

/-- The outcomes of `n` successive `Next` calls on the database state `db`, the
target being reused from call to call as in `for iter.Next(&got)`: the iterator and
the target afterwards, and per call the value yielded (`none` when `Next`
reported false). -/
def Iterator.nexts {α : Type} (c : CodecContract α) (db : DB) :
    Nat → Iterator → α → (Iterator × α) × List (Option α)
  | 0, it, target => ((it, target), [])
  | n + 1, it, target =>
    match Iterator.Next c db it target with
    | (it', target', ok) =>
      let r := Iterator.nexts c db n it' target'
      (r.1, (if ok then some target' else none) :: r.2)

/-- The loop `for iter.Next(&got) { ... }`, run for at most `fuel` calls of `Next`:
the values yielded, in order, and the iterator when `Next` reported false; `none`
when the fuel ran out first. -/
def Iterator.collect {α : Type} (c : CodecContract α) (db : DB) :
    Nat → Iterator → α → Option (List α × Iterator)
  | 0, _, _ => none
  | fuel + 1, it, target =>
    match Iterator.Next c db it target with
    | (it', _, false) => some ([], it')
    | (it', target', true) =>
      (Iterator.collect c db fuel it' target').map (fun r => (target' :: r.1, r.2))

/-- One step of a program that holds an open iterator: a call of `Next` on it, or a
`Put` of a record into the named bucket. -/
inductive Step (α : Type) where
  | next
  | put (name : String) (v : α)

/-- The number of `Next` calls in a program. -/
def countNext {α : Type} : List (Step α) → Nat
  | [] => 0
  | Step.next :: rest => countNext rest + 1
  | Step.put _ _ :: rest => countNext rest

/-- A program run step by step against the database, as `TestIterPut` does with
its open iterator: each `Next` reads the database as it is then, each `Put` that
succeeds commits a new state and one that fails leaves the database as it was.
Returns the database, the iterator and the target afterwards, and per `Next` call
the value yielded (`none` when `Next` reported false). -/
def Iterator.interleave {α : Type} (rt : RecordType α) (c : CodecContract α) :
    List (Step α) → DB → Iterator → α → (DB × Iterator × α) × List (Option α)
  | [], db, it, target => ((db, it, target), [])
  | Step.next :: rest, db, it, target =>
    match Iterator.Next c db it target with
    | (it', target', ok) =>
      let r := Iterator.interleave rt c rest db it' target'
      (r.1, (if ok then some target' else none) :: r.2)
  | Step.put name v :: rest, db, it, target =>
    match Bucket.Put rt c db name v with
    | Except.ok db' => Iterator.interleave rt c rest db' it target
    | Except.error _ => Iterator.interleave rt c rest db it target

/-- The database `db'` still holds every committed state of `db` under the same
commit number: it came from `db` by commits only. -/
def DB.Extends (db db' : DB) : Prop :=
  db.past.length ≤ db'.past.length ∧
    ∀ ts, ts ≤ db.past.length → db'.versionAt ts = db.versionAt ts

/-- A sequence of `Put` calls, each into the named bucket, stopping at the first
error. -/
def putAll {α : Type} (rt : RecordType α) (c : CodecContract α) :
    DB → List (String × α) → Except BowError DB
  | db, [] => Except.ok db
  | db, (name, v) :: rest =>
    match Bucket.Put rt c db name v with
    | Except.error e => Except.error e
    | Except.ok db' => putAll rt c db' rest

/-- The record last written under the encoded key `k` in the bucket `name` by a
sequence of `Put` calls. -/
def lastWritten {α : Type} (rt : RecordType α) (name : String) (k : List Byte) :
    List (String × α) → Option α
  | [] => none
  | (n, v) :: rest =>
    match lastWritten rt name k rest with
    | some r => some r
    | none =>
      match extractKey rt v with
      | Except.ok k' => if n = name ∧ k' = k then some v else none
      | Except.error _ => none

/-- The encoded keys written to the bucket `name` by a sequence of `Put` calls. -/
def keysWritten {α : Type} (rt : RecordType α) (name : String) :
    List (String × α) → List (List Byte)
  | [] => []
  | (n, v) :: rest =>
    match extractKey rt v with
    | Except.ok k => if n = name then k :: keysWritten rt name rest else keysWritten rt name rest
    | Except.error _ => keysWritten rt name rest

/-- A codec decodes what it encodes: when `marshal` returns bytes without error,
`unmarshal` of those bytes into any target returns no error and leaves the target
equal to the value. -/
def CodecContract.RoundTrips {α : Type} (c : CodecContract α) : Prop :=
  ∀ (v : α) (out : ByteSlice) (target : α), c.marshal v = (out, none) →
    c.unmarshal out target = (v, none)

/-- A key space is well formed when its keys are strictly ascending. -/
def Entries.WF (es : Entries) : Prop :=
  List.Sorted (fun a b => a < b) (es.map Prod.fst)

/-- A committed state is well formed when every bucket's key space is. -/
def Store.WF (s : Store) : Prop :=
  ∀ p ∈ s, Entries.WF p.2

/-- The sample record type: a `Blob` whose key field is its first byte, as a
string (an empty `Blob` has the empty key). -/
def blobRecord : RecordType (List Byte) :=
  { keyField := some (fun v => KeyValue.str (v.take 1)) }

/-! ## Theorems about `msgp.go` -/

theorem ByteSlice.sliceFrom_zero (s : ByteSlice) : s.sliceFrom 0 = s := by
  cases s <;> simp [ByteSlice.sliceFrom]

theorem ByteSlice.getD_of_len_zero (s : ByteSlice) (h : s.len = 0) : s.getD [] = [] := by
  cases s with
  | none => rfl
  | some l =>
    simp only [ByteSlice.len, List.length_eq_zero] at h
    simp [h]

theorem blobType_supported : blobType.Supported := by
  refine ⟨Blob.MarshalMsg, Blob.UnmarshalMsg, rfl, rfl, ?_⟩
  intro v buf out target hbuf hm
  unfold Blob.MarshalMsg at hm
  split at hm
  · rename_i hlen
    simp only [Prod.mk.injEq, and_true] at hm
    subst hm
    refine ⟨some [], ?_⟩
    have hmod : v.length % 256 = v.length := Nat.mod_eq_of_lt hlen
    simp [Blob.UnmarshalMsg, ByteSlice.getD_of_len_zero buf hbuf, Fin.ofNat, hmod]
  · simp at hm

/-- C9: `Id.Marshal` returns exactly the bytes of the id with a nil error, whatever
the buffer, and `Id.Unmarshal` on those bytes returns nil and sets the receiver
(whatever it held) to the same id; this holds for the empty and the nil id too. -/
theorem Id.marshal_unmarshal_identity (id buf buf2 old : ByteSlice) :
    Id.Marshal id buf = (id, none) ∧
    Id.Marshal id buf = Id.Marshal id buf2 ∧
    Id.Unmarshal old (Id.Marshal id buf).1 = (id, none) :=
  ⟨rfl, rfl, rfl⟩

/-- C2: for a supported type, when `Codec.Marshal` of `v` into an empty buffer
returns bytes without error, `Codec.Unmarshal` of those bytes returns no error
and leaves the target equal to `v`. -/
theorem Codec.unmarshal_marshal_roundtrip {α : Type} (ty : GoType α) (hsup : ty.Supported)
    (v : α) (buf out : ByteSlice) (target : α) (hbuf : buf.len = 0)
    (hmar : Codec.Marshal ty v buf = (out, none)) :
    Codec.Unmarshal ty out target = (v, none) := by
  obtain ⟨m, u, hm, hu, hdec⟩ := hsup
  simp only [Codec.Marshal, hm, ByteSlice.sliceFrom_zero] at hmar
  obtain ⟨rest, hrest⟩ := hdec v buf out target hbuf hmar
  simp [Codec.Unmarshal, hu, hrest]

theorem Codec.unmarshal_marshal_roundtrip_witness :
    Codec.Marshal blobType [1, 2, 3] none = (some [0xc4, 3, 1, 2, 3], none) ∧
    Codec.Unmarshal blobType (some [0xc4, 3, 1, 2, 3]) [9] = ([1, 2, 3], none) :=
  ⟨by decide,
   Codec.unmarshal_marshal_roundtrip blobType blobType_supported [1, 2, 3] none
     (some [0xc4, 3, 1, 2, 3]) [9] (by decide) (by decide)⟩

/-- C7 as stated fails: for the `int` value 7, which has no `MarshalMsg`,
`Codec.Marshal` returns nil bytes and an error, but no error it returns there has a
type of its own: it is the bare text error that `fmt.Errorf` builds. -/
theorem Codec.marshal_error_not_typed :
    Codec.Marshal intType 7 none =
      (none, some (GoError.errorString
        "type int doesn\x27t implement msgp.Marshaler. Did you forget to \x27go generate\x27?")) ∧
    ¬ ∃ e, (Codec.Marshal intType 7 none).2 = some e ∧ e.isTyped = true := by
  constructor
  · decide
  · rintro ⟨e, he, ht⟩
    have h : (Codec.Marshal intType 7 none).2 = some (fmtErrorf "int") := rfl
    rw [h] at he
    cases he
    simp [fmtErrorf, GoError.isTyped] at ht

/-- C7 amended: for a value whose type has no `MarshalMsg`, `Codec.Marshal` returns
nil bytes and a non-nil error, the untyped text error of `fmt.Errorf` whose text
names the type; for a value whose type has it, `Codec.Marshal` returns exactly
what `MarshalMsg` returns on the buffer. -/
theorem Codec.marshal_result {α : Type} (ty : GoType α) (v : α) (buf : ByteSlice) :
    (ty.marshalMsg = none →
      Codec.Marshal ty v buf =
        (none, some (GoError.errorString ("type " ++ ty.name ++
          " doesn\x27t implement msgp.Marshaler. Did you forget to \x27go generate\x27?"))) ∧
      ∀ e, (Codec.Marshal ty v buf).2 = some e → e.isTyped = false) ∧
    (∀ m, ty.marshalMsg = some m → Codec.Marshal ty v buf = m v buf) := by
  refine ⟨fun h => ⟨?_, ?_⟩, fun m h => ?_⟩
  · simp [Codec.Marshal, h, fmtErrorf]
  · intro e he
    simp only [Codec.Marshal, h, fmtErrorf, Option.some.injEq] at he
    subst he
    rfl
  · simp [Codec.Marshal, h, ByteSlice.sliceFrom_zero]

/-- C8: `Codec.Unmarshal` returns a non-nil error when the target has no
`UnmarshalMsg`; when `UnmarshalMsg` reports an error on the data it returns exactly
that error; and it returns nil only if the target has `UnmarshalMsg` and it
succeeded on the data. -/
theorem Codec.unmarshal_error {α : Type} (ty : GoType α) (data : ByteSlice) (target : α) :
    (ty.unmarshalMsg = none → (Codec.Unmarshal ty data target).2 ≠ none) ∧
    (∀ u e, ty.unmarshalMsg = some u → (u data target).2.2 = some e →
      (Codec.Unmarshal ty data target).2 = some e) ∧
    ((Codec.Unmarshal ty data target).2 = none →
      ∃ u, ty.unmarshalMsg = some u ∧ (u data target).2.2 = none) := by
  refine ⟨fun h => ?_, fun u e h he => ?_, fun h => ?_⟩
  · simp [Codec.Unmarshal, h]
  · simp [Codec.Unmarshal, h, he]
  · cases hu : ty.unmarshalMsg with
    | none => simp [Codec.Unmarshal, hu] at h
    | some u =>
      refine ⟨u, rfl, ?_⟩
      simpa [Codec.Unmarshal, hu] using h

/-- C10: when the target's `UnmarshalMsg` decodes a value from the data and returns
a non-empty remainder of unread bytes, `Codec.Unmarshal` returns nil (and the
target holds the decoded value): the remainder is dropped. -/
theorem Codec.unmarshal_drops_trailing_bytes {α : Type} (ty : GoType α)
    (u : ByteSlice → α → α × ByteSlice × Option GoError) (data rest : ByteSlice)
    (target decoded : α) (hu : ty.unmarshalMsg = some u)
    (hdec : u data target = (decoded, rest, none)) (_hrest : 0 < rest.len) :
    Codec.Unmarshal ty data target = (decoded, none) := by
  simp [Codec.Unmarshal, hu, hdec]

theorem Codec.unmarshal_drops_trailing_bytes_witness :
    Blob.UnmarshalMsg (some [0xc4, 1, 7, 8, 9]) [] = ([7], some [8, 9], none) ∧
    Codec.Unmarshal blobType (some [0xc4, 1, 7, 8, 9]) [] = ([7], none) :=
  ⟨by decide,
   Codec.unmarshal_drops_trailing_bytes blobType Blob.UnmarshalMsg (some [0xc4, 1, 7, 8, 9])
     (some [8, 9]) [] [7] rfl (by decide) (by decide)⟩

/-! ## Lemmas about the key spaces -/

theorem Entries.find_upsert_self (k : List Byte) (x : ByteSlice) (es : Entries) :
    Entries.find k (Entries.upsert k x es) = some x := by
  induction es with
  | nil => simp [Entries.upsert, Entries.find]
  | cons e rest ih =>
    obtain ⟨k', x'⟩ := e
    unfold Entries.upsert
    split
    · simp [Entries.find]
    · rename_i hne
      split
      · simp [Entries.find]
      · simp [Entries.find, hne, ih]

theorem Entries.find_upsert_ne (k k2 : List Byte) (x : ByteSlice) (es : Entries) (h : k2 ≠ k) :
    Entries.find k2 (Entries.upsert k x es) = Entries.find k2 es := by
  induction es with
  | nil => simp [Entries.upsert, Entries.find, h]
  | cons e rest ih =>
    obtain ⟨k', x'⟩ := e
    unfold Entries.upsert
    split
    · rename_i heq
      subst heq
      simp [Entries.find, h]
    · split
      · simp [Entries.find, h]
      · simp [Entries.find, ih]

theorem Entries.find_eq_none_iff (k : List Byte) (es : Entries) :
    Entries.find k es = none ↔ k ∉ es.map Prod.fst := by
  induction es with
  | nil => simp [Entries.find]
  | cons e rest ih =>
    obtain ⟨k', x'⟩ := e
    by_cases h : k = k'
    · simp [Entries.find, h]
    · simp [Entries.find, h, ih]

theorem Entries.mem_of_find (k : List Byte) (x : ByteSlice) (es : Entries)
    (h : Entries.find k es = some x) : (k, x) ∈ es := by
  induction es with
  | nil => simp [Entries.find] at h
  | cons e rest ih =>
    obtain ⟨k', x'⟩ := e
    by_cases hk : k = k'
    · simp [Entries.find, hk] at h
      simp [hk, h]
    · simp only [Entries.find, hk, if_false] at h
      exact List.mem_cons_of_mem _ (ih h)

theorem Entries.upsert_keys_subset (k : List Byte) (x : ByteSlice) (es : Entries) :
    ∀ a ∈ (Entries.upsert k x es).map Prod.fst, a = k ∨ a ∈ es.map Prod.fst := by
  induction es with
  | nil => simp [Entries.upsert]
  | cons e rest ih =>
    obtain ⟨k', x'⟩ := e
    intro a ha
    unfold Entries.upsert at ha
    split at ha
    · rename_i heq
      simp only [List.map_cons, List.mem_cons] at ha ⊢
      rcases ha with ha | ha
      · exact Or.inl ha
      · exact Or.inr (Or.inr ha)
    · split at ha
      · simp only [List.map_cons, List.mem_cons] at ha ⊢
        exact ha
      · simp only [List.map_cons, List.mem_cons] at ha ⊢
        rcases ha with ha | ha
        · exact Or.inr (Or.inl ha)
        · rcases ih a ha with h | h
          · exact Or.inl h
          · exact Or.inr (Or.inr h)

theorem Entries.WF_upsert (k : List Byte) (x : ByteSlice) (es : Entries) (h : Entries.WF es) :
    Entries.WF (Entries.upsert k x es) := by
  induction es with
  | nil => simp [Entries.upsert, Entries.WF]
  | cons e rest ih =>
    obtain ⟨k', x'⟩ := e
    unfold Entries.WF at h ih ⊢
    simp only [List.map_cons, List.sorted_cons] at h
    unfold Entries.upsert
    split
    · rename_i heq
      subst heq
      simpa [List.sorted_cons] using h
    · rename_i hne
      split
      · rename_i hlt
        simp only [List.map_cons, List.sorted_cons, List.mem_cons]
        refine ⟨?_, h⟩
        intro b hb
        rcases hb with hb | hb
        · exact hb ▸ hlt
        · exact lt_trans hlt (h.1 b hb)
      · rename_i hnlt
        simp only [List.map_cons, List.sorted_cons]
        refine ⟨?_, ih h.2⟩
        intro b hb
        rcases Entries.upsert_keys_subset k x rest b hb with hb | hb
        · subst hb
          exact lt_of_le_of_ne (not_lt.mp hnlt) (Ne.symm hne)
        · exact h.1 b hb

theorem Entries.WF_nodup (es : Entries) (h : Entries.WF es) : (es.map Prod.fst).Nodup :=
  List.Sorted.nodup h

theorem Entries.filter_key_length (k : List Byte) (es : Entries)
    (hnd : (es.map Prod.fst).Nodup) (hmem : k ∈ es.map Prod.fst) :
    (es.filter (fun e => e.1 = k)).length = 1 := by
  induction es with
  | nil => simp at hmem
  | cons e rest ih =>
    obtain ⟨k', x'⟩ := e
    simp only [List.map_cons, List.nodup_cons] at hnd
    by_cases hk : k' = k
    · subst hk
      have hnone : rest.filter (fun e => e.1 = k') = [] := by
        rw [List.filter_eq_nil_iff]
        intro e he hek
        simp only [decide_eq_true_eq] at hek
        exact hnd.1 (hek ▸ List.mem_map_of_mem Prod.fst he)
      simp [List.filter_cons, hnone]
    · simp only [List.map_cons, List.mem_cons] at hmem
      rcases hmem with hmem | hmem
      · exact absurd hmem.symm hk
      · simp [List.filter_cons, hk, ih hnd.2 hmem]

theorem Entries.upsert_perm_of_absent (k : List Byte) (x : ByteSlice) (es : Entries)
    (h : Entries.find k es = none) : List.Perm (Entries.upsert k x es) ((k, x) :: es) := by
  induction es with
  | nil => simp [Entries.upsert]
  | cons e rest ih =>
    obtain ⟨k', x'⟩ := e
    by_cases hk : k = k'
    · simp [Entries.find, hk] at h
    · simp only [Entries.find, hk, if_false] at h
      unfold Entries.upsert
      simp only [hk, if_false]
      split
      · exact List.Perm.refl _
      · exact ((ih h).cons (k', x')).trans (List.Perm.swap _ _ _)

theorem Store.bucket_write_self (name : String) (k : List Byte) (x : ByteSlice) (s : Store) :
    Store.bucket name (Store.write name k x s) = Entries.upsert k x (Store.bucket name s) := by
  induction s with
  | nil => simp [Store.write, Store.bucket, Entries.upsert]
  | cons p rest ih =>
    obtain ⟨n, es⟩ := p
    by_cases h : name = n
    · simp [Store.write, Store.bucket, h]
    · simp [Store.write, Store.bucket, h, ih]

theorem Store.bucket_write_ne (name other : String) (k : List Byte) (x : ByteSlice) (s : Store)
    (h : other ≠ name) :
    Store.bucket other (Store.write name k x s) = Store.bucket other s := by
  induction s with
  | nil => simp [Store.write, Store.bucket, h]
  | cons p rest ih =>
    obtain ⟨n, es⟩ := p
    by_cases hn : name = n
    · subst hn
      simp [Store.write, Store.bucket, h]
    · by_cases ho : other = n
      · simp [Store.write, Store.bucket, hn, ho]
      · simp [Store.write, Store.bucket, hn, ho, ih]

theorem Store.WF_bucket (name : String) (s : Store) (h : Store.WF s) :
    Entries.WF (Store.bucket name s) := by
  induction s with
  | nil => simp [Store.bucket, Entries.WF]
  | cons p rest ih =>
    obtain ⟨n, es⟩ := p
    by_cases hn : name = n
    · simpa [Store.bucket, hn] using h (n, es) (List.mem_cons_self _ _)
    · simpa [Store.bucket, hn] using ih (fun q hq => h q (List.mem_cons_of_mem _ hq))

theorem Store.WF_write (name : String) (k : List Byte) (x : ByteSlice) (s : Store)
    (h : Store.WF s) : Store.WF (Store.write name k x s) := by
  induction s with
  | nil =>
    intro p hp
    simp only [Store.write, List.mem_singleton] at hp
    subst hp
    simp [Entries.WF]
  | cons p rest ih =>
    obtain ⟨n, es⟩ := p
    have hrest : Store.WF rest := fun q hq => h q (List.mem_cons_of_mem _ hq)
    have hes : Entries.WF es := h (n, es) (List.mem_cons_self _ _)
    intro q hq
    unfold Store.write at hq
    split at hq
    · simp only [List.mem_cons] at hq
      rcases hq with hq | hq
      · subst hq
        exact Entries.WF_upsert k x es hes
      · exact hrest q hq
    · simp only [List.mem_cons] at hq
      rcases hq with hq | hq
      · subst hq
        exact hes
      · exact ih hrest q hq

/-- What a successful `Put` did: the key was extracted, the value marshalled, and
the new state is the old one with that one write, the old one being retained. -/
theorem Bucket.put_ok {α : Type} (rt : RecordType α) (c : CodecContract α) (db db' : DB)
    (name : String) (v : α) (h : Bucket.Put rt c db name v = Except.ok db') :
    ∃ k bytes, extractKey rt v = Except.ok k ∧ c.marshal v = (bytes, none) ∧
      db' = { past := db.past ++ [db.current], current := Store.write name k bytes db.current } := by
  unfold Bucket.Put at h
  split at h
  · simp at h
  · rename_i k hk
    split at h
    · simp at h
    · rename_i bytes hm
      simp only [Except.ok.injEq] at h
      exact ⟨k, bytes, hk, hm, h.symm⟩

theorem extractKey_eq {α : Type} (rt : RecordType α) (v : α) (k : List Byte)
    (h : extractKey rt v = Except.ok k) :
    ∃ f, rt.keyField = some f ∧ encodeKey (f v) = Except.ok k := by
  unfold extractKey at h
  split at h
  · simp at h
  · rename_i f hf
    exact ⟨f, hf, h⟩

theorem Bucket.get_of_find {α : Type} (c : CodecContract α) (hc : c.RoundTrips) (db : DB)
    (name : String) (kv : KeyValue) (k : List Byte) (v : α) (bytes : ByteSlice) (target : α)
    (hk : encodeKey kv = Except.ok k) (hm : c.marshal v = (bytes, none))
    (hfind : Entries.find k (Store.bucket name db.current) = some bytes) :
    Bucket.Get c db name kv target = (v, none) := by
  simp [Bucket.Get, hk, hfind, hc v bytes target hm]

theorem msgpCodec_roundTrips {α : Type} (ty : GoType α) (h : ty.Supported) :
    (msgpCodec ty).RoundTrips := by
  obtain ⟨m, u, hm, hu, hdec⟩ := h
  intro v out target hmar
  simp only [msgpCodec, Codec.Marshal, hm, ByteSlice.sliceFrom_zero] at hmar
  obtain ⟨rest, hrest⟩ := hdec v none out target rfl hmar
  simp [msgpCodec, Codec.Unmarshal, hu, hrest]

/-! ## Lemmas about read transactions and iterators -/

theorem DB.versionAt_current (db : DB) : db.versionAt db.past.length = some db.current := by
  simp [DB.versionAt]

theorem DB.versionAt_commit (db : DB) (s : Store) (ts : Nat) (h : ts ≤ db.past.length) :
    DB.versionAt { past := db.past ++ [db.current], current := s } ts = db.versionAt ts := by
  unfold DB.versionAt
  apply List.getElem?_append_left
  simp
  omega

theorem Iterator.Next_readTs {α : Type} (c : CodecContract α) (db : DB) (it : Iterator)
    (target : α) :
    (Iterator.Next c db it target).1.readTs = it.readTs ∧
    (Iterator.Next c db it target).1.bucket = it.bucket := by
  unfold Iterator.Next
  split
  · exact ⟨rfl, rfl⟩
  · exact ⟨rfl, rfl⟩
  · split
    · exact ⟨rfl, rfl⟩
    · split
      · exact ⟨rfl, rfl⟩
      · split
        · exact ⟨rfl, rfl⟩
        · split
          · exact ⟨rfl, rfl⟩
          · exact ⟨rfl, rfl⟩

theorem DB.Extends_refl (db : DB) : DB.Extends db db :=
  ⟨Nat.le_refl _, fun _ _ => rfl⟩

theorem DB.Extends_commit (db0 db : DB) (s : Store) (h : DB.Extends db0 db) :
    DB.Extends db0 { past := db.past ++ [db.current], current := s } := by
  refine ⟨?_, fun ts hts => ?_⟩
  · simp only [List.length_append, List.length_singleton]
    exact Nat.le_succ_of_le h.1
  · rw [DB.versionAt_commit db s ts (Nat.le_trans hts h.1)]
    exact h.2 ts hts

theorem Iterator.Next_extends {α : Type} (c : CodecContract α) (db0 db : DB)
    (it : Iterator) (target : α) (hext : DB.Extends db0 db) (h : it.readTs ≤ db0.past.length) :
    Iterator.Next c db it target = Iterator.Next c db0 it target := by
  unfold Iterator.Next
  rw [hext.2 it.readTs h]

theorem Iterator.nexts_succ {α : Type} (c : CodecContract α) (db : DB) (n : Nat) (it : Iterator)
    (target : α) :
    Iterator.nexts c db (n + 1) it target =
      ((Iterator.nexts c db n (Iterator.Next c db it target).1
          (Iterator.Next c db it target).2.1).1,
        (if (Iterator.Next c db it target).2.2 then some (Iterator.Next c db it target).2.1
          else none) ::
          (Iterator.nexts c db n (Iterator.Next c db it target).1
            (Iterator.Next c db it target).2.1).2) :=
  rfl

theorem Iterator.nexts_readTs {α : Type} (c : CodecContract α) (db : DB) :
    ∀ (n : Nat) (it : Iterator) (target : α),
      (Iterator.nexts c db n it target).1.1.readTs = it.readTs := by
  intro n
  induction n with
  | zero => intro it target; rfl
  | succ n ih =>
    intro it target
    rw [Iterator.nexts_succ]
    simp only
    rw [ih]
    exact (Iterator.Next_readTs c db it target).1

theorem Iterator.interleave_next {α : Type} (rt : RecordType α) (c : CodecContract α)
    (rest : List (Step α)) (db : DB) (it : Iterator) (target : α) :
    Iterator.interleave rt c (Step.next :: rest) db it target =
      ((Iterator.interleave rt c rest db (Iterator.Next c db it target).1
          (Iterator.Next c db it target).2.1).1,
        (if (Iterator.Next c db it target).2.2 then some (Iterator.Next c db it target).2.1
          else none) ::
          (Iterator.interleave rt c rest db (Iterator.Next c db it target).1
            (Iterator.Next c db it target).2.1).2) :=
  rfl

theorem Iterator.interleave_put_ok {α : Type} (rt : RecordType α) (c : CodecContract α)
    (rest : List (Step α)) (db db' : DB) (it : Iterator) (target : α) (name : String) (v : α)
    (h : Bucket.Put rt c db name v = Except.ok db') :
    Iterator.interleave rt c (Step.put name v :: rest) db it target =
      Iterator.interleave rt c rest db' it target := by
  simp [Iterator.interleave, h]

theorem Iterator.interleave_put_error {α : Type} (rt : RecordType α) (c : CodecContract α)
    (rest : List (Step α)) (db : DB) (it : Iterator) (target : α) (name : String) (v : α)
    (e : BowError) (h : Bucket.Put rt c db name v = Except.error e) :
    Iterator.interleave rt c (Step.put name v :: rest) db it target =
      Iterator.interleave rt c rest db it target := by
  simp [Iterator.interleave, h]

/-- Whatever is committed while a program runs, an iterator whose read transaction
began on `db0` sees in its `Next` calls what it would see on `db0` alone. -/
theorem Iterator.interleave_extends {α : Type} (rt : RecordType α) (c : CodecContract α)
    (db0 : DB) :
    ∀ (steps : List (Step α)) (db : DB) (it : Iterator) (target : α), DB.Extends db0 db →
      it.readTs ≤ db0.past.length →
      ((Iterator.interleave rt c steps db it target).1.2,
        (Iterator.interleave rt c steps db it target).2) =
        Iterator.nexts c db0 (countNext steps) it target := by
  intro steps
  induction steps with
  | nil => intro db it target _ _; rfl
  | cons st rest ih =>
    intro db it target hext hts
    cases st with
    | next =>
      have hnext := Iterator.Next_extends c db0 db it target hext hts
      have hts' : (Iterator.Next c db0 it target).1.readTs ≤ db0.past.length := by
        rw [(Iterator.Next_readTs c db0 it target).1]
        exact hts
      have h := ih db (Iterator.Next c db0 it target).1 (Iterator.Next c db0 it target).2.1
        hext hts'
      rw [Iterator.interleave_next, hnext]
      show _ = Iterator.nexts c db0 (countNext rest + 1) it target
      rw [Iterator.nexts_succ, ← h]
    | put pname v =>
      show _ = Iterator.nexts c db0 (countNext rest) it target
      cases hput : Bucket.Put rt c db pname v with
      | error e =>
        rw [Iterator.interleave_put_error rt c rest db it target pname v e hput]
        exact ih db it target hext hts
      | ok db' =>
        rw [Iterator.interleave_put_ok rt c rest db db' it target pname v hput]
        obtain ⟨k, bytes, _, _, hdb⟩ := Bucket.put_ok rt c db db' pname v hput
        apply ih db' it target _ hts
        rw [hdb]
        exact DB.Extends_commit db0 db _ hext

theorem forall₂_getElem? {α β : Type} {R : α → β → Prop} {l1 : List α} {l2 : List β}
    (h : List.Forall₂ R l1 l2) (i : Nat) :
    (l1[i]? = none ∧ l2[i]? = none) ∨ ∃ a b, l1[i]? = some a ∧ l2[i]? = some b ∧ R a b := by
  induction h generalizing i with
  | nil => simp
  | cons hab _ ih =>
    cases i with
    | zero => exact Or.inr ⟨_, _, by simp, by simp, hab⟩
    | succ i => simpa using ih i

theorem Iterator.nexts_exhausted {α : Type} (c : CodecContract α) (db : DB) :
    ∀ (n : Nat) (it : Iterator) (target : α), it.state = IterState.Exhausted →
      Iterator.nexts c db n it target = ((it, target), List.replicate n none) := by
  intro n
  induction n with
  | zero => intro it target _; rfl
  | succ n ih =>
    intro it target h
    have hnext : Iterator.Next c db it target = (it, target, false) := by
      simp [Iterator.Next, h]
    rw [Iterator.nexts_succ, hnext]
    simp [ih it target h, List.replicate_succ]

theorem map_getElem?_range'_of_le {α : Type} (rs : List α) (p n : Nat) (h : rs.length ≤ p) :
    (List.range' p n).map (fun i => rs[i]?) = List.replicate n none := by
  induction n generalizing p with
  | zero => rfl
  | succ n ih =>
    rw [List.range'_succ, List.map_cons, ih (p + 1) (by omega), List.getElem?_eq_none h,
      List.replicate_succ]

/-- On a snapshot whose entries are the encodings of the records `rs`, `n` calls of
`Next` from cursor position `p` yield the records at positions `p, p+1, ...` and
then nothing, and leave no error. -/
theorem Iterator.nexts_decodable {α : Type} (c : CodecContract α) (hc : c.RoundTrips) (db : DB)
    (view : Store) (es : Entries) (rs : List α)
    (hrs : List.Forall₂ (fun e r => c.marshal r = (e.2, none)) es rs) :
    ∀ (n : Nat) (it : Iterator) (target : α), it.err = none →
      db.versionAt it.readTs = some view → Store.bucket it.bucket view = es →
      (it.state = IterState.Open ∨ (it.state = IterState.Exhausted ∧ es.length ≤ it.pos)) →
      (Iterator.nexts c db n it target).2 = (List.range' it.pos n).map (fun i => rs[i]?) ∧
      (Iterator.nexts c db n it target).1.1.err = none := by
  have hlen := hrs.length_eq
  intro n
  induction n with
  | zero => intro it target herr _ _ _; exact ⟨rfl, herr⟩
  | succ n ih =>
    intro it target herr hview hes hst
    rcases hst with hopen | ⟨hex, hpos⟩
    · rcases forall₂_getElem? hrs it.pos with ⟨h1, h2⟩ | ⟨e, r, h1, h2, hm⟩
      · have hnext : Iterator.Next c db it target =
            ({ it with state := IterState.Exhausted }, target, false) := by
          simp [Iterator.Next, hopen, herr, hview, hes, h1]
        have hle : rs.length ≤ it.pos := by
          by_contra hlt
          rw [List.getElem?_eq_getElem (by omega)] at h2
          cases h2
        rw [Iterator.nexts_succ, hnext]
        simp only
        rw [Iterator.nexts_exhausted c db n _ target rfl, map_getElem?_range'_of_le rs it.pos _ hle]
        simp [List.replicate_succ, herr]
      · obtain ⟨k, bytes⟩ := e
        have hun := hc r bytes target hm
        have hnext : Iterator.Next c db it target =
            ({ it with pos := it.pos + 1 }, r, true) := by
          simp [Iterator.Next, hopen, herr, hview, hes, h1, hun]
        rw [Iterator.nexts_succ, hnext]
        simp only
        have := ih { it with pos := it.pos + 1 } r herr hview hes (Or.inl hopen)
        rw [this.1, List.range'_succ]
        simp [h2, this.2]
    · rw [Iterator.nexts_exhausted c db _ it target hex,
        map_getElem?_range'_of_le rs it.pos _ (by omega)]
      exact ⟨rfl, herr⟩

theorem Iterator.collect_decodable {α : Type} (c : CodecContract α) (hc : c.RoundTrips)
    (db : DB) (view : Store) (es : Entries) (rs : List α)
    (hrs : List.Forall₂ (fun e r => c.marshal r = (e.2, none)) es rs) :
    ∀ (d : Nat) (it : Iterator) (target : α) (fuel : Nat), it.err = none →
      db.versionAt it.readTs = some view → Store.bucket it.bucket view = es →
      it.state = IterState.Open → rs.length - it.pos = d → d < fuel →
      ∃ it', Iterator.collect c db fuel it target = some (rs.drop it.pos, it') ∧
        it'.err = none := by
  intro d
  induction d with
  | zero =>
    intro it target fuel herr hview hes hopen hd hfuel
    obtain ⟨fuel, rfl⟩ : ∃ f, fuel = f + 1 := ⟨fuel - 1, by omega⟩
    have hle : rs.length ≤ it.pos := by omega
    have h1 : (Store.bucket it.bucket view)[it.pos]? = none := by
      rw [hes]
      exact List.getElem?_eq_none (by rw [hrs.length_eq]; exact hle)
    have hnext : Iterator.Next c db it target =
        ({ it with state := IterState.Exhausted }, target, false) := by
      simp [Iterator.Next, hopen, herr, hview, h1]
    refine ⟨{ it with state := IterState.Exhausted }, ?_, herr⟩
    simp [Iterator.collect, hnext, List.drop_eq_nil_of_le hle]
  | succ d ih =>
    intro it target fuel herr hview hes hopen hd hfuel
    obtain ⟨fuel, rfl⟩ : ∃ f, fuel = f + 1 := ⟨fuel - 1, by omega⟩
    have hlt : it.pos < rs.length := by omega
    rcases forall₂_getElem? hrs it.pos with ⟨_, h2⟩ | ⟨e, r, h1, h2, hm⟩
    · rw [List.getElem?_eq_getElem hlt] at h2
      cases h2
    · obtain ⟨k, bytes⟩ := e
      have hun := hc r bytes target hm
      have hnext : Iterator.Next c db it target =
          ({ it with pos := it.pos + 1 }, r, true) := by
        simp [Iterator.Next, hopen, herr, hview, hes, h1, hun]
      obtain ⟨it', hcol, herr'⟩ := ih { it with pos := it.pos + 1 } r fuel herr hview hes hopen
        (by simp only; omega) (by omega)
      refine ⟨it', ?_, herr'⟩
      rw [List.getElem?_eq_getElem hlt] at h2
      simp only [Option.some.injEq] at h2
      simp only [Iterator.collect, hnext, hcol, Option.map_some']
      rw [List.drop_eq_getElem_cons hlt, h2]

/-! ## Lemmas about sequences of `Put` calls -/

theorem Entries.find_of_mem (k : List Byte) (x : ByteSlice) (es : Entries)
    (hnd : (es.map Prod.fst).Nodup) (h : (k, x) ∈ es) : Entries.find k es = some x := by
  induction es with
  | nil => simp at h
  | cons e rest ih =>
    obtain ⟨k', x'⟩ := e
    simp only [List.map_cons, List.nodup_cons] at hnd
    simp only [List.mem_cons, Prod.mk.injEq] at h
    rcases h with ⟨hk, hx⟩ | h
    · simp [Entries.find, hk, hx]
    · have hne : k ≠ k' := by
        intro heq
        exact hnd.1 (heq ▸ List.mem_map_of_mem Prod.fst h)
      simp [Entries.find, hne, ih hnd.2 h]

theorem putAll_cons {α : Type} (rt : RecordType α) (c : CodecContract α) (db db' : DB)
    (n : String) (v : α) (rest : List (String × α))
    (h : putAll rt c db ((n, v) :: rest) = Except.ok db') :
    ∃ db1, Bucket.Put rt c db n v = Except.ok db1 ∧ putAll rt c db1 rest = Except.ok db' := by
  unfold putAll at h
  split at h
  · simp at h
  · rename_i db1 h1
    exact ⟨db1, h1, h⟩

theorem putAll_WF {α : Type} (rt : RecordType α) (c : CodecContract α) :
    ∀ (ops : List (String × α)) (db db' : DB), Store.WF db.current →
      putAll rt c db ops = Except.ok db' → Store.WF db'.current := by
  intro ops
  induction ops with
  | nil =>
    intro db db' hwf h
    simp only [putAll, Except.ok.injEq] at h
    exact h ▸ hwf
  | cons p rest ih =>
    obtain ⟨n, v⟩ := p
    intro db db' hwf h
    obtain ⟨db1, h1, h2⟩ := putAll_cons rt c db db' n v rest h
    obtain ⟨k, bytes, _, _, hdb1⟩ := Bucket.put_ok rt c db db1 n v h1
    apply ih db1 db' _ h2
    rw [hdb1]
    exact Store.WF_write n k bytes db.current hwf

theorem putAll_marshal_ok {α : Type} (rt : RecordType α) (c : CodecContract α) :
    ∀ (ops : List (String × α)) (db db' : DB), putAll rt c db ops = Except.ok db' →
      ∀ p ∈ ops, (c.marshal p.2).2 = none := by
  intro ops
  induction ops with
  | nil => intro db db' _ p hp; simp at hp
  | cons q rest ih =>
    obtain ⟨n, v⟩ := q
    intro db db' h p hp
    obtain ⟨db1, h1, h2⟩ := putAll_cons rt c db db' n v rest h
    obtain ⟨k, bytes, _, hm, _⟩ := Bucket.put_ok rt c db db1 n v h1
    simp only [List.mem_cons] at hp
    rcases hp with hp | hp
    · subst hp
      simp [hm]
    · exact ih db1 db' h2 p hp

theorem lastWritten_cons {α : Type} (rt : RecordType α) (name : String) (k : List Byte)
    (n : String) (v : α) (rest : List (String × α)) :
    lastWritten rt name k ((n, v) :: rest) =
      (match lastWritten rt name k rest with
        | some r => some r
        | none =>
          match extractKey rt v with
          | Except.ok k' => if n = name ∧ k' = k then some v else none
          | Except.error _ => none) :=
  rfl

theorem keysWritten_cons {α : Type} (rt : RecordType α) (name : String)
    (n : String) (v : α) (rest : List (String × α)) :
    keysWritten rt name ((n, v) :: rest) =
      (match extractKey rt v with
        | Except.ok k => if n = name then k :: keysWritten rt name rest else keysWritten rt name rest
        | Except.error _ => keysWritten rt name rest) :=
  rfl

theorem putAll_find {α : Type} (rt : RecordType α) (c : CodecContract α) (name : String)
    (k : List Byte) :
    ∀ (ops : List (String × α)) (db db' : DB), putAll rt c db ops = Except.ok db' →
      Entries.find k (Store.bucket name db'.current) =
        (match lastWritten rt name k ops with
          | some r => some (c.marshal r).1
          | none => Entries.find k (Store.bucket name db.current)) := by
  intro ops
  induction ops with
  | nil =>
    intro db db' h
    simp only [putAll, Except.ok.injEq] at h
    simp [lastWritten, h]
  | cons p rest ih =>
    obtain ⟨n, v⟩ := p
    intro db db' h
    obtain ⟨db1, h1, h2⟩ := putAll_cons rt c db db' n v rest h
    obtain ⟨k1, bytes, hk1, hm, hdb1⟩ := Bucket.put_ok rt c db db1 n v h1
    rw [ih db1 db' h2, lastWritten_cons]
    cases hl : lastWritten rt name k rest with
    | some r => rfl
    | none =>
      simp only [hk1]
      rw [hdb1]
      by_cases hcond : n = name ∧ k1 = k
      · obtain ⟨hn, hk⟩ := hcond
        subst hn
        subst hk
        simp [Store.bucket_write_self, Entries.find_upsert_self, hm]
      · simp only [hcond, if_false]
        by_cases hn : n = name
        · subst hn
          have hk : k ≠ k1 := fun heq => hcond ⟨rfl, heq.symm⟩
          simp [Store.bucket_write_self, Entries.find_upsert_ne k1 k bytes _ hk]
        · simp [Store.bucket_write_ne n name k1 bytes db.current (fun heq => hn heq.symm)]

theorem lastWritten_some {α : Type} (rt : RecordType α) (name : String) (k : List Byte) (r : α) :
    ∀ (ops : List (String × α)), lastWritten rt name k ops = some r →
      (name, r) ∈ ops ∧ extractKey rt r = Except.ok k := by
  intro ops
  induction ops with
  | nil => intro h; simp [lastWritten] at h
  | cons p rest ih =>
    obtain ⟨n, v⟩ := p
    intro h
    rw [lastWritten_cons] at h
    cases hl : lastWritten rt name k rest with
    | some r' =>
      rw [hl] at h
      simp only [Option.some.injEq] at h
      subst h
      exact ⟨List.mem_cons_of_mem _ (ih hl).1, (ih hl).2⟩
    | none =>
      rw [hl] at h
      simp only at h
      split at h
      · rename_i k' hk'
        split at h
        · rename_i hcond
          simp only [Option.some.injEq] at h
          subst h
          obtain ⟨hn, hk⟩ := hcond
          subst hn
          subst hk
          exact ⟨List.mem_cons_self _ _, hk'⟩
        · simp at h
      · simp at h

theorem lastWritten_ne_none_iff {α : Type} (rt : RecordType α) (name : String) (k : List Byte) :
    ∀ (ops : List (String × α)),
      lastWritten rt name k ops ≠ none ↔ k ∈ keysWritten rt name ops := by
  intro ops
  induction ops with
  | nil => simp [lastWritten, keysWritten]
  | cons p rest ih =>
    obtain ⟨n, v⟩ := p
    rw [lastWritten_cons, keysWritten_cons]
    cases hl : lastWritten rt name k rest with
    | some r' =>
      have hmem : k ∈ keysWritten rt name rest := (ih).1 (by simp [hl])
      cases hk : extractKey rt v with
      | error e => simpa using hmem
      | ok k' =>
        by_cases hn : n = name
        · simp [hn, hmem]
        · simpa [hn] using hmem
    | none =>
      have hmem : k ∉ keysWritten rt name rest := fun hin => (ih).2 hin hl
      cases hk : extractKey rt v with
      | error e => simpa using hmem
      | ok k' =>
        by_cases hn : n = name
        · by_cases hkk : k' = k
          · simp [hn, hkk]
          · have hkk2 : ¬ k = k' := fun h => hkk h.symm
            simp [hn, hkk, hkk2, hmem]
        · simp [hn, hmem]

theorem forall₂_of_forall_exists {α β : Type} {R : α → β → Prop} :
    ∀ (l : List α), (∀ a ∈ l, ∃ b, R a b) → ∃ l2, List.Forall₂ R l l2 := by
  intro l
  induction l with
  | nil => intro _; exact ⟨[], List.Forall₂.nil⟩
  | cons a rest ih =>
    intro h
    obtain ⟨b, hb⟩ := h a (List.mem_cons_self _ _)
    obtain ⟨l2, hl2⟩ := ih (fun x hx => h x (List.mem_cons_of_mem _ hx))
    exact ⟨b :: l2, List.Forall₂.cons hb hl2⟩

theorem forall₂_mem_left {α β : Type} {R : α → β → Prop} {l1 : List α} {l2 : List β}
    (h : List.Forall₂ R l1 l2) : ∀ a ∈ l1, ∃ b ∈ l2, R a b := by
  induction h with
  | nil => intro a ha; simp at ha
  | cons hab _ ih =>
    intro a ha
    simp only [List.mem_cons] at ha
    rcases ha with ha | ha
    · exact ⟨_, List.mem_cons_self _ _, ha ▸ hab⟩
    · obtain ⟨b, hb, hr⟩ := ih a ha
      exact ⟨b, List.mem_cons_of_mem _ hb, hr⟩

theorem forall₂_mem_right {α β : Type} {R : α → β → Prop} {l1 : List α} {l2 : List β}
    (h : List.Forall₂ R l1 l2) : ∀ b ∈ l2, ∃ a ∈ l1, R a b := by
  induction h with
  | nil => intro b hb; simp at hb
  | cons hab _ ih =>
    intro b hb
    simp only [List.mem_cons] at hb
    rcases hb with hb | hb
    · exact ⟨_, List.mem_cons_self _ _, hb ▸ hab⟩
    · obtain ⟨a, ha, hr⟩ := ih b hb
      exact ⟨a, List.mem_cons_of_mem _ ha, hr⟩

theorem forall₂_map_eq {α β γ : Type} {f : α → γ} {g : β → γ} {l1 : List α} {l2 : List β}
    (h : List.Forall₂ (fun a b => f a = g b) l1 l2) : l1.map f = l2.map g := by
  induction h with
  | nil => rfl
  | cons hab _ ih => simp [hab, ih]

theorem Bucket.get_put_same {α : Type} (rt : RecordType α) (c : CodecContract α)
    (hc : c.RoundTrips) (db db' : DB) (name : String) (v : α)
    (hput : Bucket.Put rt c db name v = Except.ok db') :
    ∃ key, rt.keyField = some key ∧ ∀ target, Bucket.Get c db' name (key v) target = (v, none) := by
  obtain ⟨k, bytes, hk, hm, hdb⟩ := Bucket.put_ok rt c db db' name v hput
  obtain ⟨f, hf, henc⟩ := extractKey_eq rt v k hk
  refine ⟨f, hf, fun target => ?_⟩
  apply Bucket.get_of_find c hc db' name (f v) k v bytes target henc hm
  rw [hdb]
  simp [Store.bucket_write_self, Entries.find_upsert_self]

/-! ## Theorems about the bucket layer -/

/-- C1: with a codec that decodes what it encodes, in any store state, after
`Bucket(b).Put(v)` succeeds, `Bucket(b).Get(key(v), &got)` succeeds and leaves
`got`, whatever it held, equal to `v`. -/
theorem Bucket.get_after_put {α : Type} (rt : RecordType α) (c : CodecContract α)
    (hc : c.RoundTrips) (db db' : DB) (name : String) (v target : α)
    (hput : Bucket.Put rt c db name v = Except.ok db') :
    ∃ key, rt.keyField = some key ∧ Bucket.Get c db' name (key v) target = (v, none) := by
  obtain ⟨f, hf, hget⟩ := Bucket.get_put_same rt c hc db db' name v hput
  exact ⟨f, hf, hget target⟩

theorem Bucket.get_after_put_witness :
    ∃ key, blobRecord.keyField = some key ∧
      Bucket.Get (msgpCodec blobType)
        { past := [[]], current := [("arrows", [([1], some [0xc4, 3, 1, 2, 3])])] }
        "arrows" (key [1, 2, 3]) [9, 9] = ([1, 2, 3], none) :=
  Bucket.get_after_put blobRecord (msgpCodec blobType) (msgpCodec_roundTrips blobType blobType_supported)
    DB.Open { past := [[]], current := [("arrows", [([1], some [0xc4, 3, 1, 2, 3])])] }
    "arrows" [1, 2, 3] [9, 9] rfl

/-- C3: in a well-formed store state and with a codec that decodes what it
encodes, after `Put(v1)` then `Put(v2)` into bucket `b`, both records having the
key `k`, `Get(b, k)` returns `v2` (so not `v1` when they differ) and the bucket
holds exactly one entry under `k`; and a `Put` of a record whose key is not yet
in the bucket adds one entry to the entries already there, changes none of
them, and makes the record readable under its key. -/
theorem Bucket.put_overwrites_or_inserts {α : Type} (rt : RecordType α) (c : CodecContract α)
    (hc : c.RoundTrips) (db db1 db2 : DB) (hwf : Store.WF db.current) (name : String)
    (v1 v2 : α) (k : List Byte) (kv : KeyValue) (target : α)
    (hk1 : extractKey rt v1 = Except.ok k) (hk2 : extractKey rt v2 = Except.ok k)
    (hkv : encodeKey kv = Except.ok k)
    (h1 : Bucket.Put rt c db name v1 = Except.ok db1)
    (h2 : Bucket.Put rt c db1 name v2 = Except.ok db2) :
    Bucket.Get c db2 name kv target = (v2, none) ∧
    (v1 ≠ v2 → (Bucket.Get c db2 name kv target).1 ≠ v1) ∧
    ((Store.bucket name db2.current).filter (fun e => e.1 = k)).length = 1 ∧
    (∀ (v : α) (k' : List Byte) (dbn : DB), extractKey rt v = Except.ok k' →
      Entries.find k' (Store.bucket name db.current) = none →
      Bucket.Put rt c db name v = Except.ok dbn →
        List.Perm (Store.bucket name dbn.current)
          ((k', (c.marshal v).1) :: Store.bucket name db.current) ∧
        (∀ k2, k2 ≠ k' → Entries.find k2 (Store.bucket name dbn.current) =
          Entries.find k2 (Store.bucket name db.current)) ∧
        ∀ kv' t, encodeKey kv' = Except.ok k' → Bucket.Get c dbn name kv' t = (v, none)) := by
  obtain ⟨k1, bytes1, hk1', hm1, hdb1⟩ := Bucket.put_ok rt c db db1 name v1 h1
  obtain ⟨k2, bytes2, hk2', hm2, hdb2⟩ := Bucket.put_ok rt c db1 db2 name v2 h2
  rw [hk1] at hk1'
  rw [hk2] at hk2'
  cases hk1'
  cases hk2'
  have hfind : Entries.find k (Store.bucket name db2.current) = some bytes2 := by
    rw [hdb2]
    simp [Store.bucket_write_self, Entries.find_upsert_self]
  have hget : Bucket.Get c db2 name kv target = (v2, none) :=
    Bucket.get_of_find c hc db2 name kv k v2 bytes2 target hkv hm2 hfind
  refine ⟨hget, ?_, ?_, ?_⟩
  · intro hne
    rw [hget]
    exact fun h => hne h.symm
  · have hwf1 : Store.WF db1.current := by
      rw [hdb1]
      exact Store.WF_write name k bytes1 db.current hwf
    have hwf2 : Store.WF db2.current := by
      rw [hdb2]
      exact Store.WF_write name k bytes2 db1.current hwf1
    apply Entries.filter_key_length
    · exact Entries.WF_nodup _ (Store.WF_bucket name _ hwf2)
    · have := Entries.mem_of_find k bytes2 _ hfind
      exact List.mem_map_of_mem Prod.fst this
  · intro v k' dbn hk' habs hput
    obtain ⟨k3, bytes3, hk3, hm3, hdbn⟩ := Bucket.put_ok rt c db dbn name v hput
    rw [hk'] at hk3
    cases hk3
    have hb : Store.bucket name dbn.current = Entries.upsert k' bytes3 (Store.bucket name db.current) := by
      rw [hdbn]
      simp [Store.bucket_write_self]
    refine ⟨?_, ?_, ?_⟩
    · rw [hb, hm3]
      exact Entries.upsert_perm_of_absent k' bytes3 _ habs
    · intro k2 hne
      rw [hb]
      exact Entries.find_upsert_ne k' k2 bytes3 _ hne
    · intro kv' t hkv'
      apply Bucket.get_of_find c hc dbn name kv' k' v bytes3 t hkv' hm3
      rw [hb]
      exact Entries.find_upsert_self k' bytes3 _

/-- C5: for two distinct bucket names, a successful `Put` into the second leaves
the result of every `Get` on the first unchanged, whatever the key (the key of
the record put included), the target and the record type read. -/
theorem Bucket.put_leaves_other_buckets {α β : Type} (rt : RecordType α) (c : CodecContract α)
    (c2 : CodecContract β) (db db' : DB) (b1 b2 : String) (v : α) (hne : b1 ≠ b2)
    (hput : Bucket.Put rt c db b2 v = Except.ok db') (kv : KeyValue) (target : β) :
    Bucket.Get c2 db' b1 kv target = Bucket.Get c2 db b1 kv target := by
  obtain ⟨k, bytes, _, _, hdb⟩ := Bucket.put_ok rt c db db' b2 v hput
  rw [hdb]
  simp [Bucket.Get, Store.bucket_write_ne b2 b1 k bytes db.current hne]

theorem Bucket.put_overwrites_or_inserts_witness :
    Bucket.Get (msgpCodec blobType)
        { past := [[], [("arrows", [([1], some [0xc4, 3, 1, 2, 3])])]],
          current := [("arrows", [([1], some [0xc4, 2, 1, 7])])] }
        "arrows" (KeyValue.str [1]) [] = ([1, 7], none) ∧
      ((Store.bucket "arrows" [("arrows", [([1], some [0xc4, 2, 1, 7])])]).filter
        (fun e => e.1 = [1])).length = 1 :=
  have h := Bucket.put_overwrites_or_inserts blobRecord (msgpCodec blobType)
    (msgpCodec_roundTrips blobType blobType_supported) DB.Open
    { past := [[]], current := [("arrows", [([1], some [0xc4, 3, 1, 2, 3])])] }
    { past := [[], [("arrows", [([1], some [0xc4, 3, 1, 2, 3])])]],
      current := [("arrows", [([1], some [0xc4, 2, 1, 7])])] }
    (fun _ hp => absurd hp (List.not_mem_nil _)) "arrows" [1, 2, 3] [1, 7] [1] (KeyValue.str [1]) []
    rfl rfl rfl rfl rfl
  ⟨h.1, h.2.2.1⟩

theorem Bucket.put_leaves_other_buckets_witness :
    Bucket.Get (msgpCodec blobType)
        { past := [[], [("arrows", [([1], some [0xc4, 3, 1, 2, 3])])]],
          current := [("arrows", [([1], some [0xc4, 3, 1, 2, 3])]),
                      ("new_arrows", [([1], some [0xc4, 2, 1, 7])])] }
        "arrows" (KeyValue.str [1]) [] =
      Bucket.Get (msgpCodec blobType)
        { past := [[]], current := [("arrows", [([1], some [0xc4, 3, 1, 2, 3])])] }
        "arrows" (KeyValue.str [1]) [] :=
  Bucket.put_leaves_other_buckets blobRecord (msgpCodec blobType) (msgpCodec blobType)
    { past := [[]], current := [("arrows", [([1], some [0xc4, 3, 1, 2, 3])])] }
    { past := [[], [("arrows", [([1], some [0xc4, 3, 1, 2, 3])])]],
      current := [("arrows", [([1], some [0xc4, 3, 1, 2, 3])]),
                  ("new_arrows", [([1], some [0xc4, 2, 1, 7])])] }
    "arrows" "new_arrows" [1, 7] (by decide) rfl (KeyValue.str [1]) []

/-- C4: once an iterator is open, no `Put` committed afterwards is visible to it,
however many are committed, into whichever bucket, under keys already returned
or not yet reached, and however they are interleaved with its `Next` calls: the
`Next` calls yield, and leave the iterator and target in, exactly what the same
number of `Next` calls yield on the database as it was when `Iter()` was called;
when the bucket then held the encodings of the records `rs`, the calls yield `rs`
in order, `Next` first reports false after the last of them, and `Err()` is nil;
and a `Get` issued right after any of those `Put` calls returns the record it
wrote. -/
theorem Iterator.put_invisible {α : Type} (rt : RecordType α) (c : CodecContract α)
    (hc : c.RoundTrips) (db : DB) (name : String) (steps : List (Step α)) (t0 : α) :
    ((Iterator.interleave rt c steps db (Bucket.Iter db name) t0).1.2,
      (Iterator.interleave rt c steps db (Bucket.Iter db name) t0).2) =
      Iterator.nexts c db (countNext steps) (Bucket.Iter db name) t0 ∧
    (∀ rs : List α,
      List.Forall₂ (fun e r => c.marshal r = (e.2, none)) (Store.bucket name db.current) rs →
        (Iterator.interleave rt c steps db (Bucket.Iter db name) t0).2 =
          (List.range (countNext steps)).map (fun i => rs[i]?) ∧
        (Iterator.interleave rt c steps db (Bucket.Iter db name) t0).1.2.1.Err = none) ∧
    (∀ (pre post : List (Step α)) (pname : String) (v : α) (dbm : DB),
      steps = pre ++ Step.put pname v :: post →
      Bucket.Put rt c (Iterator.interleave rt c pre db (Bucket.Iter db name) t0).1.1 pname v =
        Except.ok dbm →
      ∃ key, rt.keyField = some key ∧
        ∀ target, Bucket.Get c dbm pname (key v) target = (v, none)) := by
  have heq := Iterator.interleave_extends rt c db steps db (Bucket.Iter db name) t0
    (DB.Extends_refl db) (Nat.le_refl _)
  refine ⟨heq, ?_, ?_⟩
  · intro rs hrs
    have hdec := Iterator.nexts_decodable c hc db db.current (Store.bucket name db.current) rs hrs
      (countNext steps) (Bucket.Iter db name) t0 rfl (DB.versionAt_current db) rfl (Or.inl rfl)
    rw [← heq] at hdec
    refine ⟨?_, hdec.2⟩
    rw [List.range_eq_range']
    exact hdec.1
  · intro pre post pname v dbm _ hput
    exact Bucket.get_put_same rt c hc _ dbm pname v hput

theorem Iterator.put_invisible_witness :
    (Iterator.interleave blobRecord (msgpCodec blobType)
        [Step.next, Step.put "arrows" [4, 6], Step.put "arrows" [1, 9], Step.next, Step.next]
        { past := [[], [("arrows", [([1], some [0xc4, 3, 1, 2, 3])])]],
          current := [("arrows", [([1], some [0xc4, 3, 1, 2, 3]), ([4], some [0xc4, 2, 4, 5])])] }
        (Bucket.Iter
          { past := [[], [("arrows", [([1], some [0xc4, 3, 1, 2, 3])])]],
            current := [("arrows", [([1], some [0xc4, 3, 1, 2, 3]), ([4], some [0xc4, 2, 4, 5])])] }
          "arrows") []).2 =
      [some [1, 2, 3], some [4, 5], none] ∧
    Bucket.Get (msgpCodec blobType)
        (Iterator.interleave blobRecord (msgpCodec blobType)
          [Step.next, Step.put "arrows" [4, 6], Step.put "arrows" [1, 9], Step.next, Step.next]
          { past := [[], [("arrows", [([1], some [0xc4, 3, 1, 2, 3])])]],
            current := [("arrows", [([1], some [0xc4, 3, 1, 2, 3]), ([4], some [0xc4, 2, 4, 5])])] }
          (Bucket.Iter
            { past := [[], [("arrows", [([1], some [0xc4, 3, 1, 2, 3])])]],
              current := [("arrows", [([1], some [0xc4, 3, 1, 2, 3]), ([4], some [0xc4, 2, 4, 5])])] }
            "arrows") []).1.1
        "arrows" (KeyValue.str [4]) [] = ([4, 6], none) :=
  have h := Iterator.put_invisible blobRecord (msgpCodec blobType)
    (msgpCodec_roundTrips blobType blobType_supported)
    { past := [[], [("arrows", [([1], some [0xc4, 3, 1, 2, 3])])]],
      current := [("arrows", [([1], some [0xc4, 3, 1, 2, 3]), ([4], some [0xc4, 2, 4, 5])])] }
    "arrows"
    [Step.next, Step.put "arrows" [4, 6], Step.put "arrows" [1, 9], Step.next, Step.next] []
  ⟨(h.2.1 [[1, 2, 3], [4, 5]]
      (List.Forall₂.cons rfl (List.Forall₂.cons rfl List.Forall₂.nil))).1,
    by decide⟩

/-- C6: for a database built from an empty store by a sequence of successful `Put`
calls with a codec that decodes what it encodes, the loop `for iter.Next(&got)` over
a bucket ends (given fuel for one `Next` call more than the bucket has distinct
keys) having yielded exactly as many records as distinct keys were written to the
bucket, no two with the same key, one for every key written, each equal to the
record last written under its key, and `Err()` is nil afterwards. -/
theorem Iterator.full_iteration {α : Type} (rt : RecordType α) (c : CodecContract α)
    (hc : c.RoundTrips) (ops : List (String × α)) (db : DB) (name : String) (t0 : α)
    (fuel : Nat) (hput : putAll rt c DB.Open ops = Except.ok db)
    (hfuel : (keysWritten rt name ops).dedup.length < fuel) :
    ∃ L it', Iterator.collect c db fuel (Bucket.Iter db name) t0 = some (L, it') ∧
      it'.Err = none ∧
      L.length = (keysWritten rt name ops).dedup.length ∧
      List.Pairwise (fun r r' => extractKey rt r ≠ extractKey rt r') L ∧
      (∀ k ∈ keysWritten rt name ops, ∃ r ∈ L, extractKey rt r = Except.ok k) ∧
      ∀ r ∈ L, ∃ k, extractKey rt r = Except.ok k ∧ lastWritten rt name k ops = some r := by
  have hwf : Store.WF db.current :=
    putAll_WF rt c ops DB.Open db (fun _ hp => absurd hp (List.not_mem_nil _)) hput
  have hnd : ((Store.bucket name db.current).map Prod.fst).Nodup :=
    Entries.WF_nodup _ (Store.WF_bucket name _ hwf)
  have hfind : ∀ k, Entries.find k (Store.bucket name db.current) =
      (match lastWritten rt name k ops with
        | some r => some (c.marshal r).1
        | none => none) := by
    intro k
    have h := putAll_find rt c name k ops DB.Open db hput
    simpa [DB.Open, Store.bucket, Entries.find] using h
  have hex : ∀ e ∈ Store.bucket name db.current,
      ∃ r, lastWritten rt name e.1 ops = some r ∧ c.marshal r = (e.2, none) := by
    intro e he
    have h1 := Entries.find_of_mem e.1 e.2 _ hnd he
    rw [hfind] at h1
    cases hl : lastWritten rt name e.1 ops with
    | none => rw [hl] at h1; simp at h1
    | some r =>
      rw [hl] at h1
      simp only [Option.some.injEq] at h1
      have hok := putAll_marshal_ok rt c ops DB.Open db hput (name, r)
        (lastWritten_some rt name e.1 r ops hl).1
      exact ⟨r, rfl, Prod.ext h1 hok⟩
  obtain ⟨rs, hrs⟩ := forall₂_of_forall_exists _ hex
  have hrs' : List.Forall₂ (fun e r => c.marshal r = (e.2, none))
      (Store.bucket name db.current) rs := hrs.imp (fun _ _ h => h.2)
  have hkey : List.Forall₂ (fun e r => Except.ok e.1 = extractKey rt r)
      (Store.bucket name db.current) rs :=
    hrs.imp (fun e r h => (lastWritten_some rt name e.1 r ops h.1).2.symm)
  have hkeys : ∀ k, k ∈ (Store.bucket name db.current).map Prod.fst ↔
      k ∈ keysWritten rt name ops := by
    intro k
    rw [← lastWritten_ne_none_iff, ← not_iff_not, ← Entries.find_eq_none_iff, hfind]
    cases lastWritten rt name k ops <;> simp
  have hperm : List.Perm ((Store.bucket name db.current).map Prod.fst)
      (keysWritten rt name ops).dedup :=
    (List.perm_ext_iff_of_nodup hnd (List.nodup_dedup _)).2
      (fun k => by rw [List.mem_dedup]; exact hkeys k)
  have hlen : rs.length = (keysWritten rt name ops).dedup.length := by
    rw [← hrs.length_eq, ← hperm.length_eq, List.length_map]
  obtain ⟨it', hcol, herr⟩ := Iterator.collect_decodable c hc db db.current
    (Store.bucket name db.current) rs hrs' rs.length (Bucket.Iter db name) t0 fuel rfl
    (DB.versionAt_current db) rfl rfl rfl (by omega)
  refine ⟨rs, it', ?_, herr, hlen, ?_, ?_, ?_⟩
  · simpa [Bucket.Iter] using hcol
  · have hmap := forall₂_map_eq hkey
    have hnd2 : (rs.map (extractKey rt)).Nodup := by
      rw [← hmap]
      have : (Store.bucket name db.current).map (fun e => (Except.ok e.1 : Except BowError (List Byte))) =
          ((Store.bucket name db.current).map Prod.fst).map Except.ok := by
        simp
      rw [this]
      exact hnd.map (fun a b h => by injection h)
    exact List.pairwise_map.1 hnd2
  · intro k hk
    have hmem := (hkeys k).2 hk
    obtain ⟨e, he, hek⟩ := List.mem_map.1 hmem
    obtain ⟨r, hr, hR⟩ := forall₂_mem_left hrs e he
    exact ⟨r, hr, hek ▸ (lastWritten_some rt name e.1 r ops hR.1).2⟩
  · intro r hr
    obtain ⟨e, _, hR⟩ := forall₂_mem_right hrs r hr
    exact ⟨e.1, (lastWritten_some rt name e.1 r ops hR.1).2, hR.1⟩

theorem Iterator.full_iteration_witness :
    Iterator.collect (msgpCodec blobType)
        { past := [[], [("arrows", [([1], some [0xc4, 3, 1, 2, 3])])],
            [("arrows", [([1], some [0xc4, 3, 1, 2, 3]), ([4], some [0xc4, 2, 4, 5])])]],
          current := [("arrows", [([1], some [0xc4, 2, 1, 9]), ([4], some [0xc4, 2, 4, 5])])] }
        3 { bucket := "arrows", readTs := 3, pos := 0, state := IterState.Open, err := none } [] =
      some ([[1, 9], [4, 5]],
        { bucket := "arrows", readTs := 3, pos := 2, state := IterState.Exhausted, err := none }) ∧
    ∃ L it', Iterator.collect (msgpCodec blobType)
        { past := [[], [("arrows", [([1], some [0xc4, 3, 1, 2, 3])])],
            [("arrows", [([1], some [0xc4, 3, 1, 2, 3]), ([4], some [0xc4, 2, 4, 5])])]],
          current := [("arrows", [([1], some [0xc4, 2, 1, 9]), ([4], some [0xc4, 2, 4, 5])])] }
        3 { bucket := "arrows", readTs := 3, pos := 0, state := IterState.Open, err := none } [] =
          some (L, it') ∧ it'.Err = none ∧ L.length = 2 :=
  have h := Iterator.full_iteration blobRecord (msgpCodec blobType)
    (msgpCodec_roundTrips blobType blobType_supported)
    [("arrows", [1, 2, 3]), ("arrows", [4, 5]), ("arrows", [1, 9])]
    { past := [[], [("arrows", [([1], some [0xc4, 3, 1, 2, 3])])],
        [("arrows", [([1], some [0xc4, 3, 1, 2, 3]), ([4], some [0xc4, 2, 4, 5])])]],
      current := [("arrows", [([1], some [0xc4, 2, 1, 9]), ([4], some [0xc4, 2, 4, 5])])] }
    "arrows" [] 3 rfl (by decide)
  ⟨by decide, h.imp (fun _ hL => hL.imp (fun _ hi => ⟨hi.1, hi.2.1, hi.2.2.1⟩))⟩

end Bow
